import Mathlib

/-!
Verification of the hapi repository (hapi-search indexer and happier machine
agent) against its natural-language specification.

The Lean definitions below are a shallow embedding of the Rust source:

* `hapi-search/src/chunker.rs`      → `flatten_segments`, `dominant_role`,
  `chunkLoop`, `chunk_messages`
* `hapi-search/src/text_extract.rs` → `truncate_str`
* `hapi-search/src/syncer.rs`       → `passChunks` (the chunk-producing part
  of `process_messages`), `initial_sync_loop`
* `hapi-search/src/search.rs`       → `compute_name_boost`, `searchModel`
* `happier/src/socket.rs`           → `runAck` (ack-id allocation and
  delivery of `emit_with_ack`)
* `happier/src/tunnel.rs`           → `handle_event`
* `happier/src/connection.rs`       → `handleRaw` (the Socket.IO event
  filter in `connect`)

Rust `String`s are modelled by Lean `String`s; `chars().count()` is
`String.length` (both count Unicode scalar values).  the Rust `str::trim`
(Unicode whitespace) is modelled by the character-level `strTrim` (ASCII
whitespace); the Rust `str::to_lowercase` is modelled by an ASCII `toLower`.
Floating-point scores are modelled by rational numbers: the scores handled
by `search` originate from JSON, which cannot denote NaN or infinities.
-/

/-- Text segment extracted from a message (models `TextSegment` in
`hapi-search/src/models.rs`): a role tag and the segment text. -/
structure TextSegment where
  role : String
  text : String
deriving Repr, DecidableEq

/-- Info about a message to be chunked (models `MessageInfo` in
`hapi-search/src/chunker.rs`). -/
structure MessageInfo where
  message_id : String
  session_id : String
  seq : Int
  created_at : Int
  segments : List TextSegment
deriving Repr, DecidableEq

/-- A chunk of merged message text (models `TextChunk` in
`hapi-search/src/models.rs`). -/
structure TextChunk where
  message_id : String
  session_id : String
  seq : Int
  created_at : Int
  role : String
  text : String
  chunk_index : Nat
deriving Repr, DecidableEq

/-- Target number of characters per chunk (`TARGET_CHUNK_CHARS` in
`chunker.rs`). -/
def TARGET_CHUNK_CHARS : Nat := 1500

/-- Newline join of a list of strings, as Rust `Vec::join("\n")`. -/
def joinSep : List String → String
  | [] => ""
  | [s] => s
  | s :: t :: rest => s ++ "\n" ++ joinSep (t :: rest)

/-- Whitespace trim of both ends of a string, as Rust `str::trim`,
modelled at the character level. -/
def strTrim (s : String) : String :=
  String.mk (((s.data.dropWhile Char.isWhitespace).reverse.dropWhile Char.isWhitespace).reverse)

/-- Emptiness test of a string, as Rust `str::is_empty` (a string is
byte-empty iff it has no characters). -/
def strIsEmpty (s : String) : Bool := s.data.isEmpty

/-- Flatten all segments of a message into a single text with role prefixes
(models `flatten_segments` in `chunker.rs`): every segment whose trimmed
text is non-empty contributes a line `"[role] text"`, joined by newlines. -/
def flatten_segments (segments : List TextSegment) : String :=
  joinSep (segments.filterMap fun seg =>
    let t := strTrim seg.text
    if strIsEmpty t then none else some ("[" ++ seg.role ++ "] " ++ t))

/-- Pick the dominant role from segments (models `dominant_role` in
`chunker.rs`): `user` if any segment has role `user`, else the first
role of the first segment, else `unknown`. -/
def dominant_role (segments : List TextSegment) : String :=
  if segments.any (fun s => s.role == "user") then "user"
  else
    match segments.head? with
    | some s => s.role
    | none => "unknown"

/-- Buffer state of the chunking loop in `chunk_messages`: the accumulated
text and the metadata of the first contributing message. -/
structure ChunkBuf where
  text : String
  first_msg_id : String
  first_seq : Int
  first_created_at : Int
  session_id : String
  role : String
deriving Repr, DecidableEq

/-- Make a `TextChunk` out of a full buffer, as the two `chunks.push` sites
in `chunk_messages`. -/
def flushBuf (b : ChunkBuf) (idx : Nat) : TextChunk :=
  { message_id := b.first_msg_id
    session_id := b.session_id
    seq := b.first_seq
    created_at := b.first_created_at
    role := b.role
    text := b.text
    chunk_index := idx }

/-- Start a fresh buffer from a message whose flattened text is `t`, as the
two buffer-starting sites in `chunk_messages`. -/
def startBuf (msg : MessageInfo) (t : String) : ChunkBuf :=
  { text := t
    first_msg_id := msg.message_id
    first_seq := msg.seq
    first_created_at := msg.created_at
    session_id := msg.session_id
    role := dominant_role msg.segments }

/-- The loop of `chunk_messages` in `chunker.rs`, with the mutable state
(`chunks`, buffer, `chunk_index`) made explicit.  `none` models the empty
buffer (`buf_text.is_empty()`). -/
def chunkLoop : List MessageInfo → Option ChunkBuf → Nat → List TextChunk
  | [], none, _ => []
  | [], some b, idx => [flushBuf b idx]
  | msg :: rest, buf, idx =>
    let msg_text := flatten_segments msg.segments
    if strIsEmpty msg_text then chunkLoop rest buf idx
    else
      match buf with
      | none => chunkLoop rest (some (startBuf msg msg_text)) idx
      | some b =>
        if b.text.length + 1 + msg_text.length > TARGET_CHUNK_CHARS then
          flushBuf b idx :: chunkLoop rest (some (startBuf msg msg_text)) (idx + 1)
        else
          chunkLoop rest (some { b with text := b.text ++ "\n" ++ msg_text }) idx

/-- Merge adjacent messages of one session into chunks (models
`chunk_messages` in `chunker.rs`). -/
def chunk_messages (messages : List MessageInfo) : List TextChunk :=
  chunkLoop messages none 0

/-- The non-empty flattened text blocks of a message list, in order; these
are exactly the blocks the chunking loop does not skip. -/
def flatBlocks (messages : List MessageInfo) : List String :=
  (messages.map fun m => flatten_segments m.segments).filter fun t => !(strIsEmpty t)

/-- Text-level projection of the chunking loop: the chunk texts produced
from a list of pending blocks and an optional buffered text. -/
def chunkTexts : List String → Option String → List String
  | [], none => []
  | [], some t => [t]
  | s :: rest, none => chunkTexts rest (some s)
  | s :: rest, some t =>
    if t.length + 1 + s.length > TARGET_CHUNK_CHARS then
      t :: chunkTexts rest (some s)
    else
      chunkTexts rest (some (t ++ "\n" ++ s))

/-! Basic facts about `joinSep` and the chunking loop. -/

theorem joinSep_cons_cons (a b : String) (l : List String) :
    joinSep (a :: b :: l) = a ++ "\n" ++ joinSep (b :: l) := by
  rfl

theorem joinSep_glue (a b : String) (l : List String) :
    joinSep ((a ++ "\n" ++ b) :: l) = joinSep (a :: b :: l) := by
  cases l with
  | nil => rfl
  | cons c l => simp [joinSep_cons_cons, String.append_assoc]

theorem length_joinSep_cons_cons (a b : String) (l : List String) :
    (joinSep (a :: b :: l)).length = a.length + 1 + (joinSep (b :: l)).length := by
  rw [joinSep_cons_cons]
  simp [String.length_append]
  rfl

theorem length_le_length_joinSep (s : String) (l : List String) :
    s.length ≤ (joinSep (s :: l)).length := by
  cases l with
  | nil => exact Nat.le_refl _
  | cons b l => rw [length_joinSep_cons_cons]; omega

/-- The chunk texts produced by the chunking loop depend only on the
non-empty flattened blocks and the buffered text. -/
theorem chunkLoop_map_text :
    ∀ (msgs : List MessageInfo) (buf : Option ChunkBuf) (idx : Nat),
      (chunkLoop msgs buf idx).map TextChunk.text
        = chunkTexts (flatBlocks msgs) (buf.map ChunkBuf.text) := by
  intro msgs
  induction msgs with
  | nil =>
    intro buf idx
    cases buf <;> simp [chunkLoop, flatBlocks, chunkTexts, flushBuf]
  | cons msg rest ih =>
    intro buf idx
    by_cases h : strIsEmpty (flatten_segments msg.segments)
    · cases buf <;>
        simp [chunkLoop, h, flatBlocks, List.filter_cons, ih]
    · cases buf with
      | none =>
        simp [chunkLoop, h, flatBlocks, List.filter_cons, chunkTexts, startBuf, ih]
      | some b =>
        by_cases hc : b.text.length + 1 + (flatten_segments msg.segments).length
            > TARGET_CHUNK_CHARS
        · simp [chunkLoop, h, hc, flatBlocks, List.filter_cons, chunkTexts, flushBuf,
            startBuf, ih]
        · simp [chunkLoop, h, hc, flatBlocks, List.filter_cons, chunkTexts, startBuf, ih]

/-- A pending group whose members all fit under the target (whenever it has
more than one member) can only contain an oversized block if it is a
singleton. -/
theorem group_big_singleton {t : String} {ext : List String}
    (hsmall : ext ≠ [] → t.length + 1 ≤ TARGET_CHUNK_CHARS
      ∧ ∀ b ∈ ext, b.length + 1 ≤ TARGET_CHUNK_CHARS) :
    ∀ b ∈ t :: ext, TARGET_CHUNK_CHARS < b.length → t :: ext = [b] := by
  intro b hb hbig
  cases ext with
  | nil =>
    have : b = t := by simpa using hb
    subst this
    rfl
  | cons e es =>
    exfalso
    obtain ⟨h1, h2⟩ := hsmall (by simp)
    rcases List.mem_cons.mp hb with hb | hb
    · subst hb; omega
    · have := h2 b hb; omega

/-- Structure of the chunk texts produced from pending blocks and a
buffered text `t`: some prefix `ext` of the blocks is merged into the
buffer, and the remaining blocks are partitioned into contiguous non-empty
groups, one chunk per group.  Oversized blocks always sit in singleton
groups, and any group with at least two members consists of blocks that
fit under the target. -/
theorem chunkTexts_structure :
    ∀ (blocks : List String) (t : String),
      ∃ (ext : List String) (groups : List (List String)),
        blocks = ext ++ groups.flatten ∧
        chunkTexts blocks (some t) = joinSep (t :: ext) :: groups.map joinSep ∧
        (∀ g ∈ groups, g ≠ []) ∧
        (∀ g ∈ groups, ∀ b ∈ g, TARGET_CHUNK_CHARS < b.length → g = [b]) ∧
        (ext ≠ [] → t.length + 1 ≤ TARGET_CHUNK_CHARS
          ∧ ∀ b ∈ ext, b.length + 1 ≤ TARGET_CHUNK_CHARS) := by
  intro blocks
  induction blocks with
  | nil =>
    intro t
    exact ⟨[], [], by simp, by simp [chunkTexts, joinSep], by simp, by simp,
      fun h => absurd rfl h⟩
  | cons s rest ih =>
    intro t
    by_cases hc : t.length + 1 + s.length > TARGET_CHUNK_CHARS
    · obtain ⟨ext, groups, hb, hct, hne, hbig, hsmall⟩ := ih s
      refine ⟨[], (s :: ext) :: groups, ?_, ?_, ?_, ?_, fun h => absurd rfl h⟩
      · simp [hb]
      · simp [chunkTexts, hc, hct, joinSep]
      · intro g hg
        rcases List.mem_cons.mp hg with hg | hg
        · subst hg; simp
        · exact hne g hg
      · intro g hg
        rcases List.mem_cons.mp hg with hg | hg
        · subst hg; exact group_big_singleton hsmall
        · exact hbig g hg
    · obtain ⟨ext, groups, hb, hct, hne, hbig, hsmall⟩ := ih (t ++ "\n" ++ s)
      refine ⟨s :: ext, groups, ?_, ?_, hne, hbig, ?_⟩
      · simp [hb]
      · rw [joinSep_glue] at hct
        simp [chunkTexts, hc, hct]
      · intro _
        refine ⟨by omega, ?_⟩
        intro b hbm
        rcases List.mem_cons.mp hbm with hbm | hbm
        · subst hbm; omega
        · exact (hsmall (by intro he; rw [he] at hbm; simp at hbm)).2 b hbm

/-- When the full newline-join of the buffered text and all pending blocks
fits in the target, everything collapses into a single chunk. -/
theorem chunkTexts_small :
    ∀ (blocks : List String) (t : String),
      (joinSep (t :: blocks)).length ≤ TARGET_CHUNK_CHARS →
      chunkTexts blocks (some t) = [joinSep (t :: blocks)] := by
  intro blocks
  induction blocks with
  | nil => intro t _; simp [chunkTexts, joinSep]
  | cons s rest ih =>
    intro t h
    rw [length_joinSep_cons_cons] at h
    have hs := length_le_length_joinSep s rest
    have hc : ¬(t.length + 1 + s.length > TARGET_CHUNK_CHARS) := by omega
    have h2 : (joinSep ((t ++ "\n" ++ s) :: rest)).length ≤ TARGET_CHUNK_CHARS := by
      rw [joinSep_glue, length_joinSep_cons_cons]; omega
    simp only [chunkTexts, hc, if_false, ite_false, if_neg hc]
    rw [ih (t ++ "\n" ++ s) h2, joinSep_glue]

/-- C2: for every input list of messages, the texts of the chunks produced
by `chunk_messages` are the newline-joins of a partition of the non-empty
flattened message blocks into contiguous non-empty groups (so every chunk
covers a contiguous sub-range of messages and no chunk splits a message),
and a message whose flattened block exceeds `TARGET_CHUNK_CHARS = 1500`
characters forms a group of its own, i.e. becomes its own chunk with text
unchanged. -/
theorem chunker_contiguity_invariant (messages : List MessageInfo) :
    ∃ groups : List (List String),
      groups.flatten = flatBlocks messages ∧
      (∀ g ∈ groups, g ≠ []) ∧
      (chunk_messages messages).map TextChunk.text = groups.map joinSep ∧
      (∀ g ∈ groups, ∀ b ∈ g, TARGET_CHUNK_CHARS < b.length → g = [b]) := by
  have hmap := chunkLoop_map_text messages none 0
  rcases hbl : flatBlocks messages with _ | ⟨b, rest⟩
  · refine ⟨[], by simp, by simp, ?_, by simp⟩
    rw [chunk_messages, hmap, hbl]
    simp [chunkTexts]
  · obtain ⟨ext, groups, hb, hct, hne, hbig, hsmall⟩ := chunkTexts_structure rest b
    refine ⟨(b :: ext) :: groups, ?_, ?_, ?_, ?_⟩
    · simp [hb]
    · intro g hg
      rcases List.mem_cons.mp hg with hg | hg
      · subst hg; simp
      · exact hne g hg
    · rw [chunk_messages, hmap, hbl]
      simp [chunkTexts, hct]
    · intro g hg
      rcases List.mem_cons.mp hg with hg | hg
      · subst hg; exact group_big_singleton hsmall
      · exact hbig g hg

/-- C1 (amended): if a message list has at least one non-empty flattened
block and the newline-join of all its non-empty flattened blocks is at most
`TARGET_CHUNK_CHARS = 1500` characters long, then `chunk_messages` produces
exactly one chunk, whose text is that join (so it contains every message
with a non-empty flattened block). -/
theorem chunk_messages_single_chunk (messages : List MessageInfo)
    (h1 : flatBlocks messages ≠ [])
    (h2 : (joinSep (flatBlocks messages)).length ≤ TARGET_CHUNK_CHARS) :
    (chunk_messages messages).map TextChunk.text = [joinSep (flatBlocks messages)] := by
  have hmap := chunkLoop_map_text messages none 0
  rcases hbl : flatBlocks messages with _ | ⟨b, rest⟩
  · exact absurd hbl h1
  · rw [chunk_messages, hmap, hbl]
    rw [hbl] at h2
    simp only [chunkTexts]
    exact chunkTexts_small rest b h2

/-- Concrete messages witnessing that `chunk_messages` merges three short
messages of one session into a single chunk. -/
def witMsgA : MessageInfo :=
  { message_id := "id1", session_id := "s", seq := 1, created_at := 10
    segments := [{ role := "user", text := "hi" }] }

/-- Second witness message. -/
def witMsgB : MessageInfo :=
  { message_id := "id2", session_id := "s", seq := 2, created_at := 20
    segments := [{ role := "assistant", text := "hello" }] }

/-- Third witness message. -/
def witMsgC : MessageInfo :=
  { message_id := "id3", session_id := "s", seq := 3, created_at := 30
    segments := [{ role := "user", text := "how are you" }] }

/-- Witness for `chunk_messages_single_chunk`: three short messages whose
blocks join to 46 characters collapse into one chunk. -/
theorem chunk_messages_single_chunk_witness :
    flatBlocks [witMsgA, witMsgB, witMsgC] ≠ []
      ∧ (joinSep (flatBlocks [witMsgA, witMsgB, witMsgC])).length ≤ TARGET_CHUNK_CHARS
      ∧ (chunk_messages [witMsgA, witMsgB, witMsgC]).map TextChunk.text
          = [joinSep (flatBlocks [witMsgA, witMsgB, witMsgC])] :=
  ⟨by decide, by decide,
    chunk_messages_single_chunk [witMsgA, witMsgB, witMsgC] (by decide) (by decide)⟩

/-- A 743-character text; its flattened block `"[user] " ++ text` has
exactly 750 characters. -/
def cexBigText : String := String.mk (List.replicate 743 'a')

/-- A counterexample message with a 750-character flattened block. -/
def cexMsg (mid : String) : MessageInfo :=
  { message_id := mid, session_id := "s", seq := 1, created_at := 1
    segments := [{ role := "user", text := cexBigText }] }

set_option maxRecDepth 40000 in
/-- Counterexample to C1 as stated: two messages of one session whose
flattened blocks have 750 characters each, hence total characters
750 + 750 = 1500 ≤ 1500 (and raw segment characters 743 + 743 = 1486),
yet `chunk_messages` produces two chunks, not one, because the loop also
counts the newline separator (750 + 1 + 750 = 1501 > 1500). -/
theorem chunker_one_chunk_counterexample :
    (([cexMsg "m1", cexMsg "m2"].map
        fun m => (flatten_segments m.segments).length).sum = 1500)
      ∧ (∀ m ∈ [cexMsg "m1", cexMsg "m2"], strIsEmpty (flatten_segments m.segments) = false)
      ∧ (chunk_messages [cexMsg "m1", cexMsg "m2"]).length = 2 :=
  ⟨by decide, by decide, by decide⟩

/-- Truncate a string to at most `max_chars` characters, keeping the first
and last `max_chars / 2` characters joined by `"..."` (models
`truncate_str` in `hapi-search/src/text_extract.rs`; `chars().take`,
`chars().skip` and `chars().count` are character-level operations). -/
def truncate_str (s : String) (max_chars : Nat) : String :=
  let char_count := s.length
  if char_count ≤ max_chars then s
  else
    let keep := max_chars / 2
    String.mk (s.data.take keep) ++ "..." ++ String.mk (s.data.drop (char_count - keep))

theorem string_length_data (s : String) : s.length = s.data.length := rfl

theorem string_length_mk (l : List Char) : (String.mk l).length = l.length := rfl

/-- C7: for `n ≥ 2`, `truncate_str s n` has at most `n + 3` characters; it
returns `s` unchanged when `s` has at most `n` characters, and otherwise it
is the first `n / 2` characters, then `"..."`, then the last `n / 2`
characters of `s`, all counted in characters. -/
theorem truncate_str_spec (s : String) (n : Nat) (h : 2 ≤ n) :
    (truncate_str s n).length ≤ n + 3
      ∧ (s.length ≤ n → truncate_str s n = s)
      ∧ (n < s.length → truncate_str s n
          = String.mk (s.data.take (n / 2)) ++ "..."
            ++ String.mk (s.data.drop (s.length - n / 2))) := by
  by_cases hle : s.length ≤ n
  · refine ⟨?_, fun _ => ?_, fun hlt => absurd hlt (by omega)⟩
    · simp only [truncate_str, if_pos hle]
      omega
    · simp only [truncate_str, if_pos hle]
  · have hlt : n < s.length := by omega
    have hdata : n < s.data.length := by rw [← string_length_data]; omega
    refine ⟨?_, fun hc => absurd hc hle, fun _ => ?_⟩
    · simp only [truncate_str, if_neg hle]
      simp only [String.length_append, string_length_mk, List.length_take, List.length_drop]
      have h3 : ("..." : String).length = 3 := rfl
      rw [h3, string_length_data]
      omega
    · simp only [truncate_str, if_neg hle]

/-- Witness for `truncate_str_spec` at `s = "abcdefghij"`, `n = 4`: the
result `"ab...ij"` has `7 ≤ 4 + 3` characters and splits as stated. -/
theorem truncate_str_spec_witness :
    2 ≤ 4 ∧ (truncate_str "abcdefghij" 4).length ≤ 4 + 3
      ∧ truncate_str "abcdefghij" 4
          = String.mk ("abcdefghij".data.take (4 / 2)) ++ "..."
            ++ String.mk ("abcdefghij".data.drop ("abcdefghij".length - 4 / 2)) :=
  ⟨by decide, (truncate_str_spec "abcdefghij" 4 (by decide)).1,
    (truncate_str_spec "abcdefghij" 4 (by decide)).2.2 (by decide)⟩

/-- Decimal digit character for a value below ten (values ≥ 10 cannot be
produced by the callers below). -/
def digitChar : Nat → Char
  | 0 => '0'
  | 1 => '1'
  | 2 => '2'
  | 3 => '3'
  | 4 => '4'
  | 5 => '5'
  | 6 => '6'
  | 7 => '7'
  | 8 => '8'
  | 9 => '9'
  | _ => '*'

/-- Numeric value of a decimal digit character. -/
def digitVal (c : Char) : Nat := c.toNat - 48

/-- Decimal digits of a natural number, most significant first; `fuel`
bounds the recursion and any `fuel > n` is enough. -/
def decimalDigitsAux : Nat → Nat → List Char
  | 0, _ => []
  | fuel + 1, n =>
    if n < 10 then [digitChar n]
    else decimalDigitsAux fuel (n / 10) ++ [digitChar (n % 10)]

/-- Decimal representation of a natural number, as produced by the Rust
format machinery for an unsigned integer. -/
def decimalRepr (n : Nat) : String := String.mk (decimalDigitsAux (n + 1) n)

theorem digitVal_digitChar {m : Nat} (h : m < 10) : digitVal (digitChar m) = m := by
  interval_cases m <;> rfl

theorem isDigit_digitChar {m : Nat} (h : m < 10) : (digitChar m).isDigit = true := by
  interval_cases m <;> rfl

theorem mem_decimalDigitsAux_isDigit :
    ∀ (fuel n : Nat), n < fuel → ∀ c ∈ decimalDigitsAux fuel n, c.isDigit = true := by
  intro fuel
  induction fuel with
  | zero => intro n h; omega
  | succ fuel ih =>
    intro n _ c hc
    by_cases h10 : n < 10
    · simp only [decimalDigitsAux, if_pos h10] at hc
      simp only [List.mem_singleton] at hc
      subst hc
      exact isDigit_digitChar h10
    · simp only [decimalDigitsAux, if_neg h10] at hc
      rcases List.mem_append.mp hc with hc | hc
      · have hlt : n / 10 < fuel := by
          have := Nat.div_lt_self (n := n) (k := 10) (by omega) (by omega)
          omega
        exact ih (n / 10) hlt c hc
      · simp only [List.mem_singleton] at hc
        subst hc
        exact isDigit_digitChar (Nat.mod_lt n (by omega))

/-- Fold a digit list back into the natural number it denotes. -/
def undigits (l : List Char) : Nat := l.foldl (fun acc c => 10 * acc + digitVal c) 0

theorem undigits_append_digit (l : List Char) (c : Char) :
    undigits (l ++ [c]) = 10 * undigits l + digitVal c := by
  simp [undigits, List.foldl_append]

theorem undigits_decimalDigitsAux :
    ∀ (fuel n : Nat), n < fuel → undigits (decimalDigitsAux fuel n) = n := by
  intro fuel
  induction fuel with
  | zero => intro n h; omega
  | succ fuel ih =>
    intro n hn
    by_cases h10 : n < 10
    · simp only [decimalDigitsAux, if_pos h10, undigits, List.foldl_cons, List.foldl_nil]
      rw [Nat.mul_zero, Nat.zero_add, digitVal_digitChar h10]
    · have hlt : n / 10 < fuel := by
        have := Nat.div_lt_self (n := n) (k := 10) (by omega) (by omega)
        omega
      simp only [decimalDigitsAux, if_neg h10]
      rw [undigits_append_digit, ih (n / 10) hlt, digitVal_digitChar (Nat.mod_lt n (by omega))]
      omega

theorem decimalRepr_injective {a b : Nat} (h : decimalRepr a = decimalRepr b) : a = b := by
  have hd : decimalDigitsAux (a + 1) a = decimalDigitsAux (b + 1) b :=
    congrArg String.data h
  have ha := undigits_decimalDigitsAux (a + 1) a (by omega)
  have hb := undigits_decimalDigitsAux (b + 1) b (by omega)
  rw [← ha, ← hb, hd]

theorem decimalRepr_isDigit (n : Nat) : ∀ c ∈ (decimalRepr n).data, c.isDigit = true :=
  mem_decimalDigitsAux_isDigit (n + 1) n (by omega)

/-- Document id of a chunk, as built in `process_messages` in
`hapi-search/src/syncer.rs`: `format!("msg_{}_chunk_{}", message_id,
chunk_index)`. -/
def docId (c : TextChunk) : String :=
  "msg_" ++ c.message_id ++ "_chunk_" ++ decimalRepr c.chunk_index

theorem takeWhile_all_append {p : Char → Bool} :
    ∀ (l : List Char) (x : Char) (u : List Char),
      (∀ c ∈ l, p c = true) → p x = false →
      (l ++ x :: u).takeWhile p = l ∧ (l ++ x :: u).dropWhile p = x :: u := by
  intro l
  induction l with
  | nil =>
    intro x u _ hx
    simp [List.takeWhile_cons, List.dropWhile_cons, hx]
  | cons c l ih =>
    intro x u hall hx
    have hc : p c = true := hall c (by simp)
    have := ih x u (fun d hd => hall d (by simp [hd])) hx
    simp [List.takeWhile_cons, List.dropWhile_cons, hc, this.1, this.2]

theorem string_mk_data (s : String) : String.mk s.data = s := rfl

theorem docId_inj {c1 c2 : TextChunk} (h : docId c1 = docId c2) :
    c1.message_id = c2.message_id ∧ c1.chunk_index = c2.chunk_index := by
  have hdata : ("msg_".data ++ c1.message_id.data)
        ++ ("_chunk_".data ++ (decimalRepr c1.chunk_index).data)
      = ("msg_".data ++ c2.message_id.data)
        ++ ("_chunk_".data ++ (decimalRepr c2.chunk_index).data) := by
    have := congrArg String.data h
    simpa [docId, String.data_append, List.append_assoc] using this
  rw [List.append_assoc, List.append_assoc] at hdata
  have h2 : c1.message_id.data ++ ("_chunk_".data ++ (decimalRepr c1.chunk_index).data)
      = c2.message_id.data ++ ("_chunk_".data ++ (decimalRepr c2.chunk_index).data) :=
    List.append_cancel_left hdata
  have hrev := congrArg List.reverse h2
  have hshape : ∀ (m : String) (i : Nat),
      (m.data ++ ("_chunk_".data ++ (decimalRepr i).data)).reverse
        = (decimalRepr i).data.reverse
          ++ '_' :: ("knuhc".data ++ '_' :: m.data.reverse) := by
    intro m i
    simp [List.reverse_append]
  rw [hshape, hshape] at hrev
  have hdig1 : ∀ c ∈ (decimalRepr c1.chunk_index).data.reverse, c.isDigit = true := by
    intro c hc
    exact decimalRepr_isDigit _ c (List.mem_reverse.mp hc)
  have hdig2 : ∀ c ∈ (decimalRepr c2.chunk_index).data.reverse, c.isDigit = true := by
    intro c hc
    exact decimalRepr_isDigit _ c (List.mem_reverse.mp hc)
  have hu : ('_' : Char).isDigit = false := rfl
  have t1 := takeWhile_all_append (p := Char.isDigit)
    (decimalRepr c1.chunk_index).data.reverse '_'
    ("knuhc".data ++ '_' :: c1.message_id.data.reverse) hdig1 hu
  have t2 := takeWhile_all_append (p := Char.isDigit)
    (decimalRepr c2.chunk_index).data.reverse '_'
    ("knuhc".data ++ '_' :: c2.message_id.data.reverse) hdig2 hu
  have hdigeq : (decimalRepr c1.chunk_index).data.reverse
      = (decimalRepr c2.chunk_index).data.reverse := by
    rw [← t1.1, ← t2.1, hrev]
  have hrepr : decimalRepr c1.chunk_index = decimalRepr c2.chunk_index := by
    have := congrArg List.reverse hdigeq
    simp only [List.reverse_reverse] at this
    have hmk := congrArg String.mk this
    rwa [string_mk_data, string_mk_data] at hmk
  have hidx : c1.chunk_index = c2.chunk_index := decimalRepr_injective hrepr
  have hdrop : ('_' :: ("knuhc".data ++ '_' :: c1.message_id.data.reverse))
      = ('_' :: ("knuhc".data ++ '_' :: c2.message_id.data.reverse)) := by
    rw [← t1.2, ← t2.2, hrev]
  have hmidrev : c1.message_id.data.reverse = c2.message_id.data.reverse := by
    have := List.cons_injective hdrop
    have h3 := List.append_cancel_left this
    exact List.cons_injective h3
  have hmid : c1.message_id = c2.message_id := by
    have := congrArg List.reverse hmidrev
    simp only [List.reverse_reverse] at this
    have hmk := congrArg String.mk this
    rwa [string_mk_data, string_mk_data] at hmk
  exact ⟨hmid, hidx⟩

/-! Unfolding equations for `chunkLoop`, one per branch of the loop body. -/

theorem chunkLoop_cons_skip {msg : MessageInfo} (rest : List MessageInfo)
    (buf : Option ChunkBuf) (idx : Nat)
    (h : strIsEmpty (flatten_segments msg.segments) = true) :
    chunkLoop (msg :: rest) buf idx = chunkLoop rest buf idx := by
  cases buf <;> simp [chunkLoop, h]

theorem chunkLoop_cons_none {msg : MessageInfo} (rest : List MessageInfo) (idx : Nat)
    (h : strIsEmpty (flatten_segments msg.segments) = false) :
    chunkLoop (msg :: rest) none idx
      = chunkLoop rest (some (startBuf msg (flatten_segments msg.segments))) idx := by
  simp [chunkLoop, h]

theorem chunkLoop_cons_flush {msg : MessageInfo} (rest : List MessageInfo)
    (b : ChunkBuf) (idx : Nat)
    (h : strIsEmpty (flatten_segments msg.segments) = false)
    (hc : b.text.length + 1 + (flatten_segments msg.segments).length > TARGET_CHUNK_CHARS) :
    chunkLoop (msg :: rest) (some b) idx
      = flushBuf b idx
        :: chunkLoop rest (some (startBuf msg (flatten_segments msg.segments))) (idx + 1) := by
  simp [chunkLoop, h, hc]

theorem chunkLoop_cons_merge {msg : MessageInfo} (rest : List MessageInfo)
    (b : ChunkBuf) (idx : Nat)
    (h : strIsEmpty (flatten_segments msg.segments) = false)
    (hc : ¬(b.text.length + 1 + (flatten_segments msg.segments).length > TARGET_CHUNK_CHARS)) :
    chunkLoop (msg :: rest) (some b) idx
      = chunkLoop rest
          (some { b with text := b.text ++ "\n" ++ flatten_segments msg.segments }) idx := by
  simp [chunkLoop, h, hc]

/-- Chunk indices produced by the chunking loop are at least the running
index and strictly increasing along the output. -/
theorem chunkLoop_index :
    ∀ (msgs : List MessageInfo) (buf : Option ChunkBuf) (idx : Nat),
      (∀ c ∈ chunkLoop msgs buf idx, idx ≤ c.chunk_index)
      ∧ ((chunkLoop msgs buf idx).map TextChunk.chunk_index).Pairwise (· < ·) := by
  intro msgs
  induction msgs with
  | nil =>
    intro buf idx
    cases buf <;> simp [chunkLoop, flushBuf]
  | cons msg rest ih =>
    intro buf idx
    rcases h : strIsEmpty (flatten_segments msg.segments) with _ | _
    · cases buf with
      | none =>
        rw [chunkLoop_cons_none rest idx h]
        exact ih _ idx
      | some b =>
        by_cases hc : b.text.length + 1 + (flatten_segments msg.segments).length
            > TARGET_CHUNK_CHARS
        · rw [chunkLoop_cons_flush rest b idx h hc]
          have ihr := ih (some (startBuf msg (flatten_segments msg.segments))) (idx + 1)
          constructor
          · intro c hcm
            rcases List.mem_cons.mp hcm with hcm | hcm
            · subst hcm; simp [flushBuf]
            · have := ihr.1 c hcm; omega
          · rw [List.map_cons, List.pairwise_cons]
            refine ⟨?_, ihr.2⟩
            intro j hj
            obtain ⟨c, hcm, rfl⟩ := List.mem_map.mp hj
            have := ihr.1 c hcm
            simp only [flushBuf]
            omega
        · rw [chunkLoop_cons_merge rest b idx h hc]
          exact ih _ idx
    · rw [chunkLoop_cons_skip rest buf idx h]
      exact ih buf idx

/-- Every chunk produced by the chunking loop takes its `message_id` from
the buffered first message or from one of the input messages. -/
theorem chunkLoop_mid_mem :
    ∀ (msgs : List MessageInfo) (buf : Option ChunkBuf) (idx : Nat) (c : TextChunk),
      c ∈ chunkLoop msgs buf idx →
      (∃ b, buf = some b ∧ c.message_id = b.first_msg_id)
        ∨ c.message_id ∈ msgs.map MessageInfo.message_id := by
  intro msgs
  induction msgs with
  | nil =>
    intro buf idx c hcm
    cases buf with
    | none => simp [chunkLoop] at hcm
    | some b =>
      simp only [chunkLoop, List.mem_singleton] at hcm
      subst hcm
      exact Or.inl ⟨b, rfl, rfl⟩
  | cons msg rest ih =>
    intro buf idx c hcm
    rcases h : strIsEmpty (flatten_segments msg.segments) with _ | _
    · cases buf with
      | none =>
        rw [chunkLoop_cons_none rest idx h] at hcm
        rcases ih _ idx c hcm with ⟨b2, hb2, hmid⟩ | hm
        · injection hb2 with hb2
          rw [← hb2] at hmid
          refine Or.inr ?_
          simp only [startBuf] at hmid
          simp [hmid]
        · exact Or.inr (by simp [hm])
      | some b =>
        by_cases hcnd : b.text.length + 1 + (flatten_segments msg.segments).length
            > TARGET_CHUNK_CHARS
        · rw [chunkLoop_cons_flush rest b idx h hcnd] at hcm
          rcases List.mem_cons.mp hcm with hcm | hcm
          · subst hcm
            exact Or.inl ⟨b, rfl, rfl⟩
          · rcases ih _ _ c hcm with ⟨b2, hb2, hmid⟩ | hm
            · injection hb2 with hb2
              rw [← hb2] at hmid
              refine Or.inr ?_
              simp only [startBuf] at hmid
              simp [hmid]
            · exact Or.inr (by simp [hm])
        · rw [chunkLoop_cons_merge rest b idx h hcnd] at hcm
          rcases ih _ idx c hcm with ⟨b2, hb2, hmid⟩ | hm
          · injection hb2 with hb2
            rw [← hb2] at hmid
            exact Or.inl ⟨b, rfl, hmid⟩
          · exact Or.inr (by simp [hm])
    · rw [chunkLoop_cons_skip rest buf idx h] at hcm
      rcases ih buf idx c hcm with hl | hm
      · exact Or.inl hl
      · exact Or.inr (by simp [hm])

/-- First-seen-order deduplication of a list of session ids, as the
`session_order` vector built in `process_messages` (`syncer.rs`): an id is
appended the first time it appears; `seen` holds ids already recorded. -/
def firstSeen : List String → List String → List String
  | [], _ => []
  | s :: rest, seen =>
    if s ∈ seen then firstSeen rest seen else s :: firstSeen rest (s :: seen)

theorem firstSeen_nodup :
    ∀ (l seen : List String),
      (firstSeen l seen).Nodup ∧ ∀ x ∈ firstSeen l seen, x ∉ seen := by
  intro l
  induction l with
  | nil => intro seen; simp [firstSeen]
  | cons s rest ih =>
    intro seen
    by_cases hs : s ∈ seen
    · simpa [firstSeen, hs] using ih seen
    · simp only [firstSeen, if_neg hs]
      obtain ⟨hnd, hmem⟩ := ih (s :: seen)
      refine ⟨List.nodup_cons.mpr ⟨?_, hnd⟩, ?_⟩
      · intro hin
        exact hmem s hin (by simp)
      · intro x hx
        rcases List.mem_cons.mp hx with hx | hx
        · subst hx; exact hs
        · intro hxs
          exact hmem x hx (by simp [hxs])

/-- The chunk-producing part of one `process_messages` pass
(`hapi-search/src/syncer.rs`): drop messages with no extracted segments,
partition the rest by session id preserving first-seen session order and
arrival order within each session, and chunk each partition with
`chunk_messages`, concatenating the per-session chunk lists. -/
def passChunks (messages : List MessageInfo) : List TextChunk :=
  (firstSeen ((messages.filter fun m => !m.segments.isEmpty).map
      MessageInfo.session_id) []).flatMap
    fun sid =>
      chunk_messages ((messages.filter fun m => !m.segments.isEmpty).filter
        fun m => m.session_id == sid)

/-- C3: in one `process_messages` pass over a batch with pairwise distinct
message ids, the document ids `"msg_" ++ message_id ++ "_chunk_" ++
chunk_index` of all produced chunks are pairwise distinct. -/
theorem passChunks_docIds_distinct (messages : List MessageInfo)
    (h : (messages.map MessageInfo.message_id).Nodup) :
    ((passChunks messages).map docId).Nodup := by
  have hmsgs : (((messages.filter fun m => !m.segments.isEmpty).map
      MessageInfo.message_id)).Nodup :=
    ((List.filter_sublist messages).map MessageInfo.message_id).nodup h
  rw [passChunks, List.map_flatMap]
  rw [List.nodup_flatMap]
  constructor
  · intro sid _
    have hidx := chunkLoop_index ((messages.filter fun m => !m.segments.isEmpty).filter
      fun m => m.session_id == sid) none 0
    have hinodup : ((chunk_messages ((messages.filter fun m => !m.segments.isEmpty).filter
        fun m => m.session_id == sid)).map TextChunk.chunk_index).Nodup :=
      hidx.2.imp (fun hab => Nat.ne_of_lt hab)
    refine List.Nodup.map_on ?_ (List.Nodup.of_map _ hinodup)
    intro x hx y hy hxy
    have hix : x.chunk_index = y.chunk_index := (docId_inj hxy).2
    exact List.inj_on_of_nodup_map hinodup hx hy hix
  · have hnd := (firstSeen_nodup ((messages.filter fun m => !m.segments.isEmpty).map
      MessageInfo.session_id) []).1
    refine hnd.imp ?_
    intro sid1 sid2 hne
    intro d hd1 hd2
    obtain ⟨c1, hc1, rfl⟩ := List.mem_map.mp hd1
    obtain ⟨c2, hc2, heq⟩ := List.mem_map.mp hd2
    have hmid : c1.message_id = c2.message_id := (docId_inj heq.symm).1
    have hm1 := chunkLoop_mid_mem _ none 0 c1 hc1
    have hm2 := chunkLoop_mid_mem _ none 0 c2 hc2
    rcases hm1 with ⟨b, hb, _⟩ | hm1
    · exact absurd hb (by simp)
    rcases hm2 with ⟨b, hb, _⟩ | hm2
    · exact absurd hb (by simp)
    obtain ⟨ma, hma, hmaid⟩ := List.mem_map.mp hm1
    obtain ⟨mb, hmb, hmbid⟩ := List.mem_map.mp hm2
    obtain ⟨hma0, hmas⟩ := List.mem_filter.mp hma
    obtain ⟨hmb0, hmbs⟩ := List.mem_filter.mp hmb
    have hmaid2 : ma.message_id = mb.message_id := by
      rw [hmaid, hmbid, hmid]
    have hmm : ma = mb := List.inj_on_of_nodup_map hmsgs hma0 hmb0 hmaid2
    exact hne (by
      have h1 : ma.session_id = sid1 := eq_of_beq hmas
      have h2 : mb.session_id = sid2 := eq_of_beq hmbs
      rw [← h1, ← h2, hmm])

/-- Witness message in a second session. -/
def witMsgD : MessageInfo :=
  { message_id := "id4", session_id := "t", seq := 1, created_at := 40
    segments := [{ role := "assistant", text := "fine" }] }

/-- Witness for `passChunks_docIds_distinct`: a batch over two sessions
with distinct message ids yields pairwise distinct document ids. -/
theorem passChunks_docIds_distinct_witness :
    (([witMsgA, witMsgB, witMsgD].map MessageInfo.message_id).Nodup)
      ∧ ((passChunks [witMsgA, witMsgB, witMsgD]).map docId).Nodup :=
  ⟨by decide, passChunks_docIds_distinct [witMsgA, witMsgB, witMsgD] (by decide)⟩

/-- A message as returned by the hub sync API, restricted to the fields
`initial_sync` reads (models `SyncMessage` in `hapi-search/src/models.rs`;
the opaque `content` tree is not needed for the cursor claim). -/
structure SyncMessage where
  id : String
  session_id : String
  seq : Int
  created_at : Int
deriving Repr, DecidableEq

/-- Response of one `fetch_messages` call (models `MessagesResponse`). -/
structure FetchResponse where
  messages : List SyncMessage
  cursor : Option String
  has_more : Bool
deriving Repr, DecidableEq

/-- The persisted sync-state values touched by `initial_sync` (the rows
`last_sync_ts` and `messages_cursor` written through
`SyncState::set_last_sync_ts` and `SyncState::set_cursor` in
`hapi-search/src/state.rs`). -/
structure SyncPersistState where
  last_sync_ts : Int
  cursor : Option String
deriving Repr, DecidableEq

/-- The loop of `initial_sync` in `hapi-search/src/syncer.rs`, with the
sequence of hub responses made an explicit input: stop on an empty page,
otherwise persist the `created_at` of the last message as `last_sync_ts` and
the response cursor when present, and continue while `has_more`. -/
def initial_sync_loop : List FetchResponse → SyncPersistState → SyncPersistState
  | [], st => st
  | resp :: rest, st =>
    if resp.messages.isEmpty then st
    else
      let st1 :=
        match resp.messages.getLast? with
        | some last => { st with last_sync_ts := last.created_at }
        | none => st
      let st2 :=
        match resp.cursor with
        | some c => { st1 with cursor := some c }
        | none => st1
      if resp.has_more then initial_sync_loop rest st2 else st2

/-- The final `last_sync_ts` is either untouched or the `created_at` of
one of the fetched messages. -/
theorem initial_sync_loop_last_cases :
    ∀ (pages : List FetchResponse) (st : SyncPersistState),
      (initial_sync_loop pages st).last_sync_ts = st.last_sync_ts
        ∨ ∃ p ∈ pages, ∃ m ∈ p.messages,
            (initial_sync_loop pages st).last_sync_ts = m.created_at := by
  intro pages
  induction pages with
  | nil => intro st; exact Or.inl rfl
  | cons resp rest ih =>
    intro st
    by_cases he : resp.messages.isEmpty
    · refine Or.inl ?_
      simp [initial_sync_loop, he]
    · have hne : resp.messages ≠ [] := by
        intro hnil; rw [hnil] at he; exact he rfl
      obtain ⟨last, hlast⟩ : ∃ last, resp.messages.getLast? = some last := by
        rcases hg : resp.messages.getLast? with _ | last
        · exact absurd (List.getLast?_eq_none_iff.mp hg) hne
        · exact ⟨last, rfl⟩
      have hmem : last ∈ resp.messages := by
        obtain ⟨hx, hy⟩ := List.mem_getLast?_eq_getLast (l := resp.messages) (x := last)
          (by rw [hlast]; rfl)
        rw [hy]
        exact List.getLast_mem hx
      simp only [initial_sync_loop, if_neg he, hlast]
      rcases hcur : resp.cursor with _ | c <;> by_cases hm : resp.has_more
      all_goals simp only [if_pos, if_neg, hm, ite_true, ite_false]
      · rcases ih { st with last_sync_ts := last.created_at } with hcase | ⟨p, hp, m, hmm, hv⟩
        · exact Or.inr ⟨resp, by simp, last, hmem, hcase⟩
        · exact Or.inr ⟨p, by simp [hp], m, hmm, hv⟩
      · exact Or.inr ⟨resp, by simp, last, hmem, rfl⟩
      · rcases ih { last_sync_ts := last.created_at, cursor := some c }
          with hcase | ⟨p, hp, m, hmm, hv⟩
        · exact Or.inr ⟨resp, by simp, last, hmem, hcase⟩
        · exact Or.inr ⟨p, by simp [hp], m, hmm, hv⟩
      · exact Or.inr ⟨resp, by simp, last, hmem, rfl⟩

/-- C4: when every fetched message has `created_at` at least the initial
`last_sync_ts` (the hub contract for `fetch_messages(since, ...)` with
`since` read from the state), a successful `initial_sync` pass leaves the
persisted `last_sync_ts` greater than or equal to its prior value, and a
pass whose first page carries zero messages leaves the state unchanged. -/
theorem initial_sync_monotone (pages : List FetchResponse) (st : SyncPersistState)
    (h : ∀ p ∈ pages, ∀ m ∈ p.messages, st.last_sync_ts ≤ m.created_at) :
    st.last_sync_ts ≤ (initial_sync_loop pages st).last_sync_ts
      ∧ ∀ p rest, pages = p :: rest → p.messages = [] →
          initial_sync_loop pages st = st := by
  constructor
  · rcases initial_sync_loop_last_cases pages st with hcase | ⟨p, hp, m, hm, hv⟩
    · rw [hcase]
    · rw [hv]
      exact h p hp m hm
  · intro p rest hpages hempty
    subst hpages
    simp [initial_sync_loop, hempty]

/-- Witness for `initial_sync_monotone`: two pages advancing the cursor
state from timestamp 5 to 42. -/
theorem initial_sync_monotone_witness :
    (∀ p ∈ [FetchResponse.mk [SyncMessage.mk "a" "s" 1 17] (some "c1") true,
        FetchResponse.mk [SyncMessage.mk "b" "s" 2 42] none false],
      ∀ m ∈ p.messages, (SyncPersistState.mk 5 none).last_sync_ts ≤ m.created_at)
    ∧ (SyncPersistState.mk 5 none).last_sync_ts
        ≤ (initial_sync_loop
            [FetchResponse.mk [SyncMessage.mk "a" "s" 1 17] (some "c1") true,
              FetchResponse.mk [SyncMessage.mk "b" "s" 2 42] none false]
            (SyncPersistState.mk 5 none)).last_sync_ts :=
  ⟨by decide,
    (initial_sync_monotone
      [FetchResponse.mk [SyncMessage.mk "a" "s" 1 17] (some "c1") true,
        FetchResponse.mk [SyncMessage.mk "b" "s" 2 42] none false]
      (SyncPersistState.mk 5 none) (by decide)).1⟩

/-- ASCII lowercase of a string, modelling Rust `str::to_lowercase` (the
queries and names in question are compared case-insensitively). -/
def strToLower (s : String) : String := String.mk (s.data.map Char.toLower)

/-- UTF-8 byte size of one character (Unicode scalar value). -/
def charUtf8Size (c : Char) : Nat :=
  if c.toNat < 0x80 then 1
  else if c.toNat < 0x800 then 2
  else if c.toNat < 0x10000 then 3
  else 4

/-- UTF-8 byte length of a string, as Rust `str::len`. -/
def strByteLen (s : String) : Nat := (s.data.map charUtf8Size).sum

/-- Split a character list on a separator predicate, keeping empty pieces,
as Rust `str::split` with a closure pattern. -/
def splitChars (p : Char → Bool) : List Char → List (List Char)
  | [] => [[]]
  | c :: rest =>
    match splitChars p rest with
    | [] => [[]]
    | piece :: pieces =>
      if p c then [] :: piece :: pieces else (c :: piece) :: pieces

/-- Split a string on a separator predicate. -/
def strSplit (s : String) (p : Char → Bool) : List String :=
  (splitChars p s.data).map String.mk

/-- Check whether `pat` starts the list. -/
def leadsWith : List Char → List Char → Bool
  | [], _ => true
  | _ :: _, [] => false
  | a :: as, b :: bs => a == b && leadsWith as bs

/-- Check whether `pat` occurs contiguously inside the list. -/
def occursIn (pat : List Char) : List Char → Bool
  | [] => pat.isEmpty
  | c :: rest => leadsWith pat (c :: rest) || occursIn pat rest

/-- Substring containment, as Rust `str::contains` on two strings. -/
def strContains (hay pat : String) : Bool := occursIn pat.data hay.data

/-- Separator predicate of the query tokenizer in `compute_name_boost`:
whitespace, `,` or `、`. -/
def boostSep (c : Char) : Bool := c.isWhitespace || c == ',' || c == '、'

/-- Query tokens of `compute_name_boost`: split the lowercased query on
`boostSep` and drop empty tokens and tokens of byte length ≤ 2 (Rust
`t.len() > 2` counts bytes). -/
def queryTokens (query_lower : String) : List String :=
  (strSplit query_lower boostSep).filter
    fun t => !(strIsEmpty t) && decide (strByteLen t > 2)

/-- Compute a score boost from how well the session name matches the query
(models `compute_name_boost` in `hapi-search/src/search.rs`; the `f64`
constant `0.02` is modelled by the rational `2 / 100`). -/
def compute_name_boost (session_name : String) (query_lower : String) : ℚ :=
  if strIsEmpty session_name then 0
  else
    let name_lower := strToLower session_name
    let query_tokens := queryTokens query_lower
    if query_tokens.isEmpty then 0
    else
      let matched := (query_tokens.filter fun token => strContains name_lower token).length
      (matched : ℚ) / (query_tokens.length : ℚ) * (2 / 100)

/-- C6: `compute_name_boost` always lies in `[0, 0.02]`; it is `0` when the
session name is empty or no query tokens remain, and otherwise equals
`0.02` times the fraction of query tokens that occur case-insensitively in
the session name. -/
theorem compute_name_boost_spec (session_name query_lower : String) :
    0 ≤ compute_name_boost session_name query_lower
      ∧ compute_name_boost session_name query_lower ≤ 2 / 100
      ∧ (strIsEmpty session_name = true ∨ queryTokens query_lower = [] →
          compute_name_boost session_name query_lower = 0)
      ∧ (strIsEmpty session_name = false → queryTokens query_lower ≠ [] →
          compute_name_boost session_name query_lower
            = 2 / 100 * (((queryTokens query_lower).filter fun token =>
                strContains (strToLower session_name) token).length : ℚ)
              / ((queryTokens query_lower).length : ℚ)) := by
  by_cases he : strIsEmpty session_name
  · refine ⟨?_, ?_, fun _ => ?_, fun hf _ => absurd he (by simp [hf])⟩ <;>
      simp [compute_name_boost, he] <;> norm_num
  · by_cases ht : (queryTokens query_lower).isEmpty
    · have htl : queryTokens query_lower = [] := by
        cases hq : queryTokens query_lower with
        | nil => rfl
        | cons a l => rw [hq] at ht; simp at ht
      refine ⟨?_, ?_, fun _ => ?_, fun _ hne => absurd htl hne⟩ <;>
        simp [compute_name_boost, he, ht] <;> norm_num
    · have htne : queryTokens query_lower ≠ [] := by
        intro hq; rw [hq] at ht; simp at ht
      have hNpos : 0 < ((queryTokens query_lower).length : ℚ) := by
        have : 0 < (queryTokens query_lower).length := List.length_pos.mpr htne
        exact_mod_cast this
      have hMN : (((queryTokens query_lower).filter fun token =>
            strContains (strToLower session_name) token).length : ℚ)
          ≤ ((queryTokens query_lower).length : ℚ) := by
        exact_mod_cast List.length_filter_le _ _
      have hM0 : (0 : ℚ) ≤ (((queryTokens query_lower).filter fun token =>
          strContains (strToLower session_name) token).length : ℚ) := by
        positivity
      have hval : compute_name_boost session_name query_lower
          = (((queryTokens query_lower).filter fun token =>
              strContains (strToLower session_name) token).length : ℚ)
            / ((queryTokens query_lower).length : ℚ) * (2 / 100) := by
        simp only [compute_name_boost, he, if_false, Bool.false_eq_true]
        rw [if_neg (by simp [ht])]
      refine ⟨?_, ?_, fun hc => ?_, fun _ _ => ?_⟩
      · rw [hval]; positivity
      · rw [hval]
        have hr : (((queryTokens query_lower).filter fun token =>
              strContains (strToLower session_name) token).length : ℚ)
            / ((queryTokens query_lower).length : ℚ) ≤ 1 :=
          (div_le_one hNpos).mpr hMN
        calc _ ≤ 1 * (2 / 100 : ℚ) := by
              apply mul_le_mul_of_nonneg_right hr
              norm_num
          _ = 2 / 100 := by norm_num
      · rcases hc with hc | hc
        · exact absurd hc (by simp [he])
        · exact absurd hc htne
      · rw [hval]; ring

/-- Witness for `compute_name_boost_spec` on the concrete example of the spec:
query `"vector search planning"` has three tokens, of which two occur in
the session name `"Vector Search Design"`. -/
theorem compute_name_boost_spec_witness :
    strIsEmpty "Vector Search Design" = false
      ∧ queryTokens "vector search planning" ≠ []
      ∧ ((queryTokens "vector search planning").filter fun token =>
          strContains (strToLower "Vector Search Design") token).length = 2
      ∧ (queryTokens "vector search planning").length = 3
      ∧ compute_name_boost "Vector Search Design" "vector search planning"
          = 2 / 100 * (((queryTokens "vector search planning").filter fun token =>
              strContains (strToLower "Vector Search Design") token).length : ℚ)
            / ((queryTokens "vector search planning").length : ℚ) :=
  ⟨by decide, by decide, by decide, by decide,
    (compute_name_boost_spec "Vector Search Design" "vector search planning").2.2.2
      (by decide) (by decide)⟩

/-- One raw engine hit as consumed by `SearchService::search`
(`hapi-search/src/search.rs`), with the JSON field accesses
(`hit.result.get("sessionId")` …) already resolved to their string/number
values and `unwrap_or` defaults applied; `ranking_score` is the combined
engine score. -/
structure EngineHit where
  session_id : String
  session_name : String
  session_path : String
  session_flavor : String
  role : String
  message_id : String
  seq : Int
  created_at : Int
  ranking_score : ℚ
  highlighted_text : String
deriving Repr, DecidableEq

/-- The session sub-object of a returned search hit (models
`SearchHitSession` in `hapi-search/src/models.rs`). -/
structure SearchHitSession where
  id : String
  name : String
  path : String
  flavor : String
  url : String
deriving Repr, DecidableEq

/-- A returned search hit (models `SearchHit` in
`hapi-search/src/models.rs`). -/
structure SearchHit where
  text : String
  role : String
  message_id : String
  seq : Int
  created_at : Int
  session : SearchHitSession
  score : ℚ
deriving Repr, DecidableEq

/-- A session-grouped result (models `SessionGroup` in `search.rs`). -/
structure SessionGroup where
  best_hit : SearchHit
  chunk_count : Nat
deriving Repr, DecidableEq

/-- The grouped search response (models `SearchResponse`; the engine
processing time is not relevant to the claims). -/
structure SearchResponse where
  query : String
  hits : List SearchHit
  total_hits : Nat
deriving Repr, DecidableEq

/-- Build the `SearchHit` for one engine hit, as the body of the `for hit
in result.hits` loop in `search`: the final score is the ranking score
plus the name boost. -/
def mkSearchHit (hapi_url query_lower : String) (h : EngineHit) : SearchHit :=
  { text := h.highlighted_text
    role := h.role
    message_id := h.message_id
    seq := h.seq
    created_at := h.created_at
    session :=
      { id := h.session_id
        name := h.session_name
        path := h.session_path
        flavor := h.session_flavor
        url := hapi_url ++ "/sessions/" ++ h.session_id }
    score := h.ranking_score + compute_name_boost h.session_name query_lower }

/-- Update a session group with one more matched hit, as
`group.chunk_count += 1` followed by the strict best-hit replacement in
`search`. -/
def updateGroup (g : SessionGroup) (hit : SearchHit) : SessionGroup :=
  let g1 := { g with chunk_count := g.chunk_count + 1 }
  if g1.best_hit.score < hit.score then { g1 with best_hit := hit } else g1

/-- Insert a hit into the association list of session groups, modelling
`groups.entry(session_id).or_insert_with(...)` followed by the update
(`or_insert_with` creates the group with `chunk_count = 0` and the update
immediately increments it to 1; the strict comparison keeps the fresh hit
as `best_hit`). -/
def insertHit : List (String × SessionGroup) → String → SearchHit → List (String × SessionGroup)
  | [], sid, hit => [(sid, { best_hit := hit, chunk_count := 1 })]
  | (k, g) :: rest, sid, hit =>
    if k = sid then (k, updateGroup g hit) :: rest
    else (k, g) :: insertHit rest sid hit

/-- Group all engine hits by session id (models the `HashMap<String,
SessionGroup>` accumulation in `search`; the map is modelled as an
association list in first-insertion order — the claims proved about the
output are insensitive to the iteration order of the hash map because the
groups are subsequently sorted). -/
def buildGroups (hapi_url query_lower : String) (hits : List EngineHit) :
    List (String × SessionGroup) :=
  hits.foldl (fun gs h => insertHit gs h.session_id (mkSearchHit hapi_url query_lower h)) []

/-- The sort order used on session groups: descending final score, ties
broken by descending chunk count (models the `sort_by` comparator
comparing scores of `b` against `a` with `then_with` on chunk counts). -/
def groupLE (a b : SessionGroup) : Prop :=
  b.best_hit.score < a.best_hit.score
    ∨ (b.best_hit.score = a.best_hit.score ∧ b.chunk_count ≤ a.chunk_count)

instance : DecidableRel groupLE := fun a b => by
  unfold groupLE
  infer_instance

instance : IsTotal SessionGroup groupLE := by
  constructor
  intro a b
  rcases lt_trichotomy a.best_hit.score b.best_hit.score with h | h | h
  · exact Or.inr (Or.inl h)
  · rcases Nat.le_total b.chunk_count a.chunk_count with hc | hc
    · exact Or.inl (Or.inr ⟨h.symm, hc⟩)
    · exact Or.inr (Or.inr ⟨h, hc⟩)
  · exact Or.inl (Or.inl h)

instance : IsTrans SessionGroup groupLE := by
  constructor
  intro a b c hab hbc
  rcases hab with hab | ⟨hab1, hab2⟩
  · rcases hbc with hbc | ⟨hbc1, hbc2⟩
    · exact Or.inl (lt_trans hbc hab)
    · exact Or.inl (hbc1 ▸ hab)
  · rcases hbc with hbc | ⟨hbc1, hbc2⟩
    · exact Or.inl (hab1 ▸ hbc)
    · exact Or.inr ⟨hbc1.trans hab1, hbc2.trans hab2⟩

/-- The session-grouped search (models `SearchService::search` in
`hapi-search/src/search.rs` after the engine returned `engineHits`): group
hits by session, keep the best-scored hit and the matched chunk count per
session, sort by descending score breaking ties by descending chunk count,
and apply `offset`/`limit` to the groups. -/
def searchModel (hapi_url query : String) (limit offset : Nat)
    (engineHits : List EngineHit) : SearchResponse :=
  let query_lower := strToLower query
  let groups := buildGroups hapi_url query_lower engineHits
  let sorted := List.insertionSort groupLE (groups.map Prod.snd)
  { query := query
    hits := ((sorted.drop offset).take limit).map SessionGroup.best_hit
    total_hits := (groups.map Prod.snd).length }

/-- Well-formedness of the group association list: keys are distinct and
the best hit of every group belongs to the session keyed by its entry. -/
def goodGroups (gs : List (String × SessionGroup)) : Prop :=
  (gs.map Prod.fst).Nodup ∧ ∀ p ∈ gs, p.2.best_hit.session.id = p.1

theorem insertHit_keys (gs : List (String × SessionGroup)) (sid : String) (hit : SearchHit) :
    (insertHit gs sid hit).map Prod.fst
      = if sid ∈ gs.map Prod.fst then gs.map Prod.fst else gs.map Prod.fst ++ [sid] := by
  induction gs with
  | nil => simp [insertHit]
  | cons p rest ih =>
    obtain ⟨k, g⟩ := p
    by_cases hk : k = sid
    · subst hk
      simp [insertHit]
    · simp only [insertHit, if_neg hk, List.map_cons, ih]
      by_cases hmem : sid ∈ rest.map Prod.fst
      · simp [hmem, Ne.symm hk]
      · simp [hmem, Ne.symm hk]

theorem insertHit_good {gs : List (String × SessionGroup)} {sid : String} {hit : SearchHit}
    (hg : goodGroups gs) (hid : hit.session.id = sid) :
    goodGroups (insertHit gs sid hit) := by
  induction gs with
  | nil =>
    refine ⟨by simp [insertHit], ?_⟩
    intro p hp
    simp only [insertHit, List.mem_singleton] at hp
    subst hp
    exact hid
  | cons q rest ih =>
    obtain ⟨k, g⟩ := q
    obtain ⟨hnd, hval⟩ := hg
    rw [List.map_cons, List.nodup_cons] at hnd
    have hrg : goodGroups rest := ⟨hnd.2, fun p hp => hval p (by simp [hp])⟩
    by_cases hk : k = sid
    · subst hk
      have hunf2 : insertHit ((k, g) :: rest) k hit = (k, updateGroup g hit) :: rest := by
        simp [insertHit]
      refine ⟨?_, ?_⟩
      · rw [hunf2, List.map_cons, List.nodup_cons]
        exact hnd
      · intro p hp
        rw [hunf2] at hp
        rcases List.mem_cons.mp hp with hp | hp
        · subst hp
          show (updateGroup g hit).best_hit.session.id = k
          simp only [updateGroup]
          by_cases hcmp : g.best_hit.score < hit.score
          · rw [if_pos hcmp]
            exact hid
          · rw [if_neg hcmp]
            exact hval (k, g) (by simp)
        · exact hval p (by simp [hp])
    · have hunf : insertHit ((k, g) :: rest) sid hit = (k, g) :: insertHit rest sid hit := by
        simp [insertHit, hk]
      obtain ⟨ihnd, ihval⟩ := ih hrg
      refine ⟨?_, ?_⟩
      · rw [hunf, List.map_cons, List.nodup_cons]
        refine ⟨?_, ihnd⟩
        rw [insertHit_keys]
        by_cases hmem : sid ∈ rest.map Prod.fst
        · rw [if_pos hmem]
          exact hnd.1
        · rw [if_neg hmem]
          simp only [List.mem_append, List.mem_singleton]
          rintro (hc | hc)
          · exact hnd.1 hc
          · exact hk hc
      · intro p hp
        rw [hunf] at hp
        rcases List.mem_cons.mp hp with hp | hp
        · subst hp
          exact hval (k, g) (by simp)
        · exact ihval p hp

theorem buildGroups_good (hapi_url query_lower : String) :
    ∀ (hits : List EngineHit) (gs : List (String × SessionGroup)),
      goodGroups gs →
      goodGroups (hits.foldl
        (fun acc h => insertHit acc h.session_id (mkSearchHit hapi_url query_lower h)) gs) := by
  intro hits
  induction hits with
  | nil => intro gs hg; exact hg
  | cons h rest ih =>
    intro gs hg
    rw [List.foldl_cons]
    exact ih _ (insertHit_good hg rfl)

/-- The sorted session-group list built inside `search`. -/
def sortedGroups (hapi_url query : String) (engineHits : List EngineHit) : List SessionGroup :=
  List.insertionSort groupLE
    ((buildGroups hapi_url (strToLower query) engineHits).map Prod.snd)

theorem searchModel_hits_eq (hapi_url query : String) (limit offset : Nat)
    (engineHits : List EngineHit) :
    (searchModel hapi_url query limit offset engineHits).hits
      = (((sortedGroups hapi_url query engineHits).drop offset).take limit).map
          SessionGroup.best_hit := rfl

/-- C5: `search` returns at most one hit per session id, the returned
scores are non-increasing in return order, and the returned hits are the
best hits of a group list sorted by descending score with ties broken by
descending matched chunk count. -/
theorem search_grouping (hapi_url query : String) (limit offset : Nat)
    (engineHits : List EngineHit) :
    ((searchModel hapi_url query limit offset engineHits).hits.map
        fun h => h.session.id).Nodup
      ∧ ((searchModel hapi_url query limit offset engineHits).hits.map
          SearchHit.score).Pairwise (fun a b => b ≤ a)
      ∧ ∃ gs : List SessionGroup,
          gs.Pairwise groupLE
          ∧ (searchModel hapi_url query limit offset engineHits).hits
              = gs.map SessionGroup.best_hit := by
  have hgood : goodGroups (buildGroups hapi_url (strToLower query) engineHits) :=
    buildGroups_good hapi_url (strToLower query) engineHits [] ⟨by simp, by simp⟩
  have hperm : List.Perm (sortedGroups hapi_url query engineHits)
      ((buildGroups hapi_url (strToLower query) engineHits).map Prod.snd) :=
    List.perm_insertionSort groupLE _
  have hpw : (sortedGroups hapi_url query engineHits).Pairwise groupLE :=
    List.sorted_insertionSort groupLE _
  have hhits := searchModel_hits_eq hapi_url query limit offset engineHits
  have hsub : ((((sortedGroups hapi_url query engineHits).drop offset).take
        limit)).Sublist (sortedGroups hapi_url query engineHits) :=
    (List.take_sublist _ _).trans (List.drop_sublist _ _)
  have hpwsub := hpw.sublist hsub
  refine ⟨?_, ?_, ?_⟩
  · rw [hhits, List.map_map]
    have h1 : (((buildGroups hapi_url (strToLower query) engineHits).map Prod.snd).map
          fun g => g.best_hit.session.id)
        = (buildGroups hapi_url (strToLower query) engineHits).map Prod.fst := by
      rw [List.map_map]
      exact List.map_congr_left fun p hp => hgood.2 p hp
    have h2 : ((sortedGroups hapi_url query engineHits).map
          fun g => g.best_hit.session.id).Nodup := by
      rw [(hperm.map fun g => g.best_hit.session.id).nodup_iff, h1]
      exact hgood.1
    exact List.Nodup.sublist (hsub.map _) h2
  · rw [hhits, List.map_map, List.pairwise_map]
    refine hpwsub.imp ?_
    intro a b hab
    rcases hab with h | ⟨h, _⟩
    · exact le_of_lt h
    · exact le_of_eq h
  · exact ⟨_, hpwsub, hhits⟩

/-- Shared state of the ack machinery of the Socket.IO client (models the
`next_id` counter and the `ack_waiters` map of `SocketClient` in
`happier/src/socket.rs`; a waiter is identified by an abstract token
standing for its oneshot sender). -/
structure AckState where
  next_id : Int
  ack_waiters : List (Int × Nat)
deriving Repr, DecidableEq

/-- The two operations that touch the ack state: an `emit_with_ack` call
(allocate the next id and register the oneshot sender of the caller under it)
and the arrival of an ack packet with a given id in the reader task. -/
inductive AckOp where
  | alloc (waiter : Nat)
  | ack (id : Int)
deriving Repr, DecidableEq

/-- Remove the entry with the given key from the waiter map, returning the
removed waiter and the remaining map (models `waiters.remove(&id)`). -/
def removeWaiter : List (Int × Nat) → Int → Option (Nat × List (Int × Nat))
  | [], _ => none
  | (k, w) :: rest, i =>
    if k = i then some (w, rest)
    else
      match removeWaiter rest i with
      | some (w2, rest2) => some (w2, (k, w) :: rest2)
      | none => none

/-- Run a sequence of ack operations from a state, returning the list of
`(id, waiter)` allocations made by `emit_with_ack` calls (in order) and
the list of `(id, waiter)` deliveries performed by the reader ack branch
(in order).  An ack whose id has no registered waiter delivers nothing.
Registration is modelled atomically with id allocation; an ack arriving
between the two lock sections of `emit_with_ack` would simply be dropped
and does not affect the stated properties. -/
def runAck : AckState → List AckOp → List (Int × Nat) × List (Int × Nat)
  | _, [] => ([], [])
  | st, AckOp.alloc w :: rest =>
    let out := runAck
      { next_id := st.next_id + 1, ack_waiters := st.ack_waiters ++ [(st.next_id, w)] } rest
    ((st.next_id, w) :: out.1, out.2)
  | st, AckOp.ack i :: rest =>
    match removeWaiter st.ack_waiters i with
    | some (w, ws) =>
      let out := runAck { st with ack_waiters := ws } rest
      (out.1, (i, w) :: out.2)
    | none => runAck st rest

theorem removeWaiter_spec :
    ∀ (l : List (Int × Nat)) (i : Int) (w : Nat) (l2 : List (Int × Nat)),
      removeWaiter l i = some (w, l2) →
      (i, w) ∈ l ∧ l2.Sublist l ∧ ((l.map Prod.fst).Nodup → i ∉ l2.map Prod.fst) := by
  intro l
  induction l with
  | nil => intro i w l2 h; simp [removeWaiter] at h
  | cons p rest ih =>
    intro i w l2 h
    obtain ⟨k, w0⟩ := p
    by_cases hk : k = i
    · subst hk
      simp only [removeWaiter, if_pos rfl, Option.some_inj] at h
      cases h
      refine ⟨List.mem_cons_self _ _, List.sublist_cons_self _ _, ?_⟩
      intro hnd
      rw [List.map_cons, List.nodup_cons] at hnd
      exact hnd.1
    · simp only [removeWaiter, if_neg hk] at h
      rcases hrec : removeWaiter rest i with _ | ⟨w2, rest2⟩
      · rw [hrec] at h; simp at h
      · rw [hrec] at h
        simp only [Option.some_inj] at h
        cases h
        obtain ⟨hmem, hsub, hnin⟩ := ih i _ _ hrec
        refine ⟨List.mem_cons_of_mem _ hmem, List.Sublist.cons₂ _ hsub, ?_⟩
        intro hnd
        rw [List.map_cons]
        rw [List.map_cons, List.nodup_cons] at hnd
        intro hc
        rcases List.mem_cons.mp hc with hc | hc
        · exact hk hc.symm
        · exact hnin hnd.2 hc

/-- Invariant run of the ack machinery: starting from a waiter map with
distinct keys all below `next_id`, the allocation ids are strictly
increasing and at least `next_id`, the delivered ids are pairwise
distinct, every delivered id was registered or freshly allocated, and
every delivery pair was a registered or allocated pair. -/
theorem runAck_inv :
    ∀ (ops : List AckOp) (st : AckState),
      (st.ack_waiters.map Prod.fst).Nodup →
      (∀ k ∈ st.ack_waiters.map Prod.fst, k < st.next_id) →
      ((runAck st ops).1.map Prod.fst).Pairwise (· < ·)
        ∧ (∀ i ∈ (runAck st ops).1.map Prod.fst, st.next_id ≤ i)
        ∧ ((runAck st ops).2.map Prod.fst).Nodup
        ∧ (∀ i ∈ (runAck st ops).2.map Prod.fst,
            i ∈ st.ack_waiters.map Prod.fst ∨ st.next_id ≤ i)
        ∧ (∀ p ∈ (runAck st ops).2, p ∈ st.ack_waiters ∨ p ∈ (runAck st ops).1) := by
  intro ops
  induction ops with
  | nil => intro st _ _; simp [runAck]
  | cons op rest ih =>
    intro st hnd hlt
    cases op with
    | alloc w =>
      have hnd2 : (((st.ack_waiters ++ [(st.next_id, w)]).map Prod.fst)).Nodup := by
        rw [List.map_append]
        simp only [List.map_cons, List.map_nil]
        rw [List.nodup_append]
        refine ⟨hnd, by simp, ?_⟩
        intro a ha
        simp only [List.mem_singleton]
        intro hb
        subst hb
        exact absurd (hlt _ ha) (lt_irrefl _)
      have hlt2 : ∀ k ∈ (st.ack_waiters ++ [(st.next_id, w)]).map Prod.fst,
          k < st.next_id + 1 := by
        intro k hk
        rw [List.map_append] at hk
        rcases List.mem_append.mp hk with hk | hk
        · exact lt_trans (hlt k hk) (by omega)
        · simp at hk
          omega
      obtain ⟨ih1, ih2, ih3, ih4, ih5⟩ :=
        ih { next_id := st.next_id + 1, ack_waiters := st.ack_waiters ++ [(st.next_id, w)] }
          hnd2 hlt2
      dsimp only at ih2 ih4
      refine ⟨?_, ?_, ih3, ?_, ?_⟩
      · simp only [runAck, List.map_cons]
        rw [List.pairwise_cons]
        refine ⟨?_, ih1⟩
        intro j hj
        have := ih2 j hj
        omega
      · intro i hi
        simp only [runAck, List.map_cons, List.mem_cons] at hi
        rcases hi with hi | hi
        · omega
        · have := ih2 i hi; omega
      · intro i hi
        simp only [runAck] at hi
        rcases ih4 i hi with hin | hge
        · rw [List.map_append] at hin
          rcases List.mem_append.mp hin with hin | hin
          · exact Or.inl hin
          · simp at hin
            omega
        · exact Or.inr (by omega)
      · intro p hp
        simp only [runAck] at hp
        rcases ih5 p hp with hin | hin
        · rcases List.mem_append.mp hin with hin | hin
          · exact Or.inl hin
          · simp only [List.mem_singleton] at hin
            exact Or.inr (by simp [runAck, hin])
        · exact Or.inr (by simp [runAck, hin])
    | ack i =>
      rcases hrm : removeWaiter st.ack_waiters i with _ | ⟨w, ws⟩
      · have hres : runAck st (AckOp.ack i :: rest) = runAck st rest := by
          simp [runAck, hrm]
        rw [hres]
        obtain ⟨ih1, ih2, ih3, ih4, ih5⟩ := ih st hnd hlt
        exact ⟨ih1, ih2, ih3, fun j hj => ih4 j hj, fun p hp => ih5 p hp⟩
      · obtain ⟨hmem, hsub, hnin⟩ := removeWaiter_spec st.ack_waiters i w ws hrm
        have hikey : i ∈ st.ack_waiters.map Prod.fst :=
          List.mem_map.mpr ⟨(i, w), hmem, rfl⟩
        have hndws : (ws.map Prod.fst).Nodup :=
          List.Nodup.sublist (hsub.map Prod.fst) hnd
        have hltws : ∀ k ∈ ws.map Prod.fst, k < st.next_id := by
          intro k hk
          obtain ⟨p, hp, hpk⟩ := List.mem_map.mp hk
          exact hlt k (List.mem_map.mpr ⟨p, hsub.subset hp, hpk⟩)
        obtain ⟨ih1, ih2, ih3, ih4, ih5⟩ := ih { st with ack_waiters := ws } hndws hltws
        dsimp only at ih2 ih4
        have hres : runAck st (AckOp.ack i :: rest)
            = ((runAck { st with ack_waiters := ws } rest).1,
              (i, w) :: (runAck { st with ack_waiters := ws } rest).2) := by
          simp [runAck, hrm]
        rw [hres]
        refine ⟨ih1, ih2, ?_, ?_, ?_⟩
        · simp only [List.map_cons]
          rw [List.nodup_cons]
          refine ⟨?_, ih3⟩
          intro hc
          rcases ih4 i hc with hin | hge
          · exact hnin hnd hin
          · exact absurd (hlt i hikey) (by omega)
        · intro j hj
          simp only [List.map_cons, List.mem_cons] at hj
          rcases hj with hj | hj
          · subst hj
            exact Or.inl hikey
          · rcases ih4 j hj with hin | hge
            · obtain ⟨p, hp, hpk⟩ := List.mem_map.mp hin
              exact Or.inl (List.mem_map.mpr ⟨p, hsub.subset hp, hpk⟩)
            · exact Or.inr hge
        · intro p hp
          rcases List.mem_cons.mp hp with hp | hp
          · subst hp
            exact Or.inl hmem
          · rcases ih5 p hp with hin | hin
            · exact Or.inl (hsub.subset hin)
            · exact Or.inr hin

/-- C8: over any interleaving of `emit_with_ack` registrations and ack
packet arrivals starting from a fresh client (`next_id = 1`, empty waiter
map), the allocated ack ids are strictly increasing (each id exceeds all
previously allocated ids, so ids are pairwise distinct), the delivered ack
ids are pairwise distinct (an ack id can deliver a payload at most once,
because delivery removes the waiter and a dropped unknown id delivers
nothing), and every delivery hands the payload to exactly the waiter that
was registered under that id. -/
theorem emit_with_ack_isolation (ops : List AckOp) :
    ((runAck { next_id := 1, ack_waiters := [] } ops).1.map Prod.fst).Pairwise (· < ·)
      ∧ ((runAck { next_id := 1, ack_waiters := [] } ops).2.map Prod.fst).Nodup
      ∧ ∀ p ∈ (runAck { next_id := 1, ack_waiters := [] } ops).2,
          p ∈ (runAck { next_id := 1, ack_waiters := [] } ops).1 := by
  obtain ⟨h1, _, h3, _, h5⟩ :=
    runAck_inv ops { next_id := 1, ack_waiters := [] } (by simp) (by simp)
  refine ⟨h1, h3, ?_⟩
  intro p hp
  rcases h5 p hp with hin | hin
  · simp at hin
  · exact hin

/-- JSON value, modelling `serde_json::Value`; numbers are modelled as
rationals (JSON numbers cannot denote NaN or infinities). -/
inductive Json where
  | null
  | bool (b : Bool)
  | num (q : ℚ)
  | str (s : String)
  | arr (elems : List Json)
  | obj (fields : List (String × Json))

/-- Field access `value["key"]`, as the `Index` impl of `serde_json`:
missing keys and non-objects yield `Null`. -/
def jsonIndex (v : Json) (key : String) : Json :=
  match v with
  | .obj fields =>
    match fields.find? (fun p => p.1 == key) with
    | some p => p.2
    | none => .null
  | _ => .null

/-- Model of `Value::as_str`. -/
def jsonAsStr : Json → Option String
  | .str s => some s
  | _ => none

/-- Model of `Value::as_u64`: some value exactly for numbers that are
non-negative integers representable in 64 bits. -/
def jsonAsU64 : Json → Option Nat
  | .num q =>
    if q.den = 1 ∧ 0 ≤ q.num ∧ q.num ≤ 18446744073709551615 then some q.num.toNat
    else none
  | _ => none

/-- Events forwarded from Socket.IO to the main loop (models `SocketEvent`
in `happier/src/connection.rs`). -/
inductive SocketEvent where
  | tunnelOpen (tunnel_id : String) (host : Option String) (port : Nat)
  | tunnelData (tunnel_id : String) (data : String)
  | tunnelClose (tunnel_id : String)
  | disconnected
deriving Repr, DecidableEq

/-- The Socket.IO event handler installed by `connect` in
`happier/src/connection.rs`: extract the fields with `unwrap_or` defaults,
validate, and forward a `SocketEvent`; `none` models the early `return`
(the event is discarded and nothing reaches the tunnel manager).  The
`as u16` cast of the port is the truncation `% 65536`. -/
def handleRaw (event : String) (data : Json) : Option SocketEvent :=
  if event = "tunnel:open" then
    let tunnel_id := (jsonAsStr (jsonIndex data "tunnelId")).getD ""
    let port := (jsonAsU64 (jsonIndex data "port")).getD 0 % 65536
    let host := jsonAsStr (jsonIndex data "host")
    if tunnel_id = "" ∨ port = 0 then none
    else some (.tunnelOpen tunnel_id host port)
  else if event = "tunnel:data" then
    let tunnel_id := (jsonAsStr (jsonIndex data "tunnelId")).getD ""
    let d := (jsonAsStr (jsonIndex data "data")).getD ""
    if tunnel_id = "" then none else some (.tunnelData tunnel_id d)
  else if event = "tunnel:close" then
    let tunnel_id := (jsonAsStr (jsonIndex data "tunnelId")).getD ""
    if tunnel_id = "" then none else some (.tunnelClose tunnel_id)
  else none

/-- Messages the tunnel manager emits back to the hub (the `emit` calls in
`happier/src/tunnel.rs` made directly by the event loop; `written` models
bytes handed to the TCP write pump). -/
inductive TunnelEmit where
  | ready (tunnel_id : String)
  | errorE (tunnel_id : String) (message : String)
  | written (tunnel_id : String) (bytes : List Nat)
deriving Repr, DecidableEq

/-- One step of the event loop of the tunnel manager (`run` together with
`handle_tunnel_open` in `happier/src/tunnel.rs`).  The tunnel map is
modelled by the list of ids holding a live `TunnelHandle`; the TCP dial
outcome is the oracle `dial`, base64 decoding is the oracle `decode`, and
`sendOk` tells whether the write channel of the tunnel is still open.  The
spawned pump tasks are out of scope: only the emissions performed by the
event loop itself are returned. -/
def handle_event (dial : String → Nat → Bool) (decode : String → Option (List Nat))
    (sendOk : String → Bool) (tunnels : List String) :
    SocketEvent → List String × List TunnelEmit
  | .tunnelOpen tunnel_id host port =>
    let target := host.getD "127.0.0.1"
    if dial target port then
      ((if tunnel_id ∈ tunnels then tunnels else tunnel_id :: tunnels),
        [.ready tunnel_id])
    else
      (tunnels,
        [.errorE tunnel_id ("connect ECONNREFUSED " ++ target ++ ":" ++ decimalRepr port)])
  | .tunnelData tunnel_id data =>
    if tunnel_id ∈ tunnels then
      match decode data with
      | some bytes =>
        if sendOk tunnel_id then (tunnels, [.written tunnel_id bytes])
        else (tunnels.erase tunnel_id, [])
      | none => (tunnels, [])
    else (tunnels, [])
  | .tunnelClose tunnel_id => (tunnels.erase tunnel_id, [])
  | .disconnected => ([], [])

/-- C9: a `TunnelOpen` whose `host` is absent dials `127.0.0.1`; when the
TCP dial fails, the manager emits exactly one `tunnel:error` whose message
is `"connect ECONNREFUSED <host>:<port>"`, stores no tunnel handle (the
tunnel set is unchanged), and a later `TunnelData` for that id is ignored:
no output and no state change. -/
theorem tunnel_open_failure (dial : String → Nat → Bool)
    (decode : String → Option (List Nat)) (sendOk : String → Bool)
    (tunnels : List String) (tid : String) (host : Option String) (port : Nat)
    (hfail : dial (host.getD "127.0.0.1") port = false)
    (hfresh : tid ∉ tunnels) :
    handle_event dial decode sendOk tunnels (.tunnelOpen tid host port)
        = (tunnels,
          [.errorE tid
            ("connect ECONNREFUSED " ++ host.getD "127.0.0.1" ++ ":" ++ decimalRepr port)])
      ∧ (∀ d, handle_event dial decode sendOk tunnels (.tunnelData tid d) = (tunnels, []))
      ∧ (host = none → host.getD "127.0.0.1" = "127.0.0.1") := by
  refine ⟨?_, ?_, ?_⟩
  · simp [handle_event, hfail]
  · intro d
    simp [handle_event, hfresh]
  · intro h
    subst h
    rfl

/-- Witness for `tunnel_open_failure`: a refused dial to the default host
on port 3000 produces exactly the message
`"connect ECONNREFUSED 127.0.0.1:3000"` and leaves data events inert. -/
theorem tunnel_open_failure_witness :
    handle_event (fun _ _ => false) (fun _ => none) (fun _ => true) []
        (.tunnelOpen "t1" none 3000)
      = ([], [.errorE "t1" "connect ECONNREFUSED 127.0.0.1:3000"])
      ∧ handle_event (fun _ _ => false) (fun _ => none) (fun _ => true) []
          (.tunnelData "t1" "cGluZw==")
        = ([], []) := by
  have h := tunnel_open_failure (fun _ _ => false) (fun _ => none) (fun _ => true)
    [] "t1" none 3000 rfl (by simp)
  exact ⟨h.1.trans (by rfl), h.2.1 "cGluZw=="⟩

/-- C10: a `tunnel:open` event whose `tunnelId` is missing or empty, or
whose `port` is missing, zero, or not an integer, is discarded by the
event handler before reaching the tunnel manager (so no dial happens and
nothing is emitted for it); `tunnel:data` and `tunnel:close` events with a
missing or empty `tunnelId` are likewise discarded. -/
theorem tunnel_event_filter (data : Json) :
    ((jsonAsStr (jsonIndex data "tunnelId") = none
        ∨ jsonAsStr (jsonIndex data "tunnelId") = some "") →
      handleRaw "tunnel:open" data = none
        ∧ handleRaw "tunnel:data" data = none
        ∧ handleRaw "tunnel:close" data = none)
      ∧ ((jsonAsU64 (jsonIndex data "port") = none
          ∨ jsonAsU64 (jsonIndex data "port") = some 0) →
        handleRaw "tunnel:open" data = none) := by
  constructor
  · intro h
    have hid : (jsonAsStr (jsonIndex data "tunnelId")).getD "" = "" := by
      rcases h with h | h <;> simp [h]
    refine ⟨?_, ?_, ?_⟩ <;> simp [handleRaw, hid]
  · intro h
    have hport : (jsonAsU64 (jsonIndex data "port")).getD 0 % 65536 = 0 := by
      rcases h with h | h <;> simp [h]
    simp [handleRaw, hport]

/-- Witness for `tunnel_event_filter`: an open event with an empty
`tunnelId` and one with a string-valued `port` are both discarded. -/
theorem tunnel_event_filter_witness :
    handleRaw "tunnel:open" (Json.obj [("tunnelId", Json.str ""), ("port", Json.num 8080)])
        = none
      ∧ handleRaw "tunnel:data" (Json.obj [("tunnelId", Json.str "")]) = none
      ∧ handleRaw "tunnel:open"
          (Json.obj [("tunnelId", Json.str "t1"), ("port", Json.str "80")]) = none :=
  ⟨((tunnel_event_filter
        (Json.obj [("tunnelId", Json.str ""), ("port", Json.num 8080)])).1
      (Or.inr (by rfl))).1,
    ((tunnel_event_filter (Json.obj [("tunnelId", Json.str "")])).1
      (Or.inr (by rfl))).2.1,
    (tunnel_event_filter
        (Json.obj [("tunnelId", Json.str "t1"), ("port", Json.str "80")])).2
      (Or.inl (by rfl))⟩
